import Mathlib

/-!
Verification of the ai-jup streaming tool-call pipeline.

The definitions below are a shallow embedding of the TypeScript sources
(`src/promptParser.ts`, `src/promptCell.ts`) together with spec-modelled
stand-ins for the server-side components (`ai_jup/handlers.py`) that are
not part of the TypeScript tree.  Text is represented as `List Char`,
JSON values as the inductive `Json`, and the browser's `JSON.parse` as a
fuel-based recursive-descent parser.
-/

namespace AiJup

/-! ## Character classes (JavaScript regex `\w`, `\s`, and JSON whitespace) -/

/-- JavaScript `\w`: ASCII letters, digits and underscore. -/
def isWordChar (c : Char) : Bool :=
  c.isAlphanum || c == '_'

/-- First character of the identifier pattern `[a-zA-Z_][a-zA-Z0-9_]*`. -/
def isIdentStart (c : Char) : Bool :=
  c.isAlpha || c == '_'

/-- Whole-name check for the identifier pattern `[a-zA-Z_][a-zA-Z0-9_]*`. -/
def isIdentName (l : List Char) : Bool :=
  match l with
  | [] => false
  | c :: cs => isIdentStart c && cs.all isWordChar

/-- JavaScript `\s`: whitespace class used by `.replace(/\s+/g, ' ')` and `.trim()`. -/
def isJsSpace (c : Char) : Bool :=
  c == ' ' || c == '\t' || c == '\n' || c == '\r' || c == '\x0b' || c == '\x0c' ||
  c == '\u00A0' || c == '\u1680' || (decide ('\u2000' ≤ c) && decide (c ≤ '\u200A')) ||
  c == '\u2028' || c == '\u2029' || c == '\u202F' || c == '\u205F' || c == '\u3000' || c == '\uFEFF'

/-- Whitespace accepted between tokens by `JSON.parse`. -/
def isJsonWs (c : Char) : Bool :=
  c == ' ' || c == '\t' || c == '\n' || c == '\r'

def takeWordChars (l : List Char) : List Char := l.takeWhile isWordChar

/-! ## JSON values and a `JSON.parse` model -/

/-- JSON values.  Numbers are held in decimal scientific form
`mantissa * 10 ^ exp10` so that fractional literals parse losslessly. -/
inductive Json where
  | null : Json
  | bool (b : Bool) : Json
  | num (mantissa : Int) (exp10 : Int) : Json
  | str (s : List Char) : Json
  | arr (elems : List Json) : Json
  | obj (fields : List (List Char × Json)) : Json

def hexVal (c : Char) : Option Nat :=
  let n := c.toNat
  if 48 ≤ n ∧ n ≤ 57 then some (n - 48)
  else if 97 ≤ n ∧ n ≤ 102 then some (n - 87)
  else if 65 ≤ n ∧ n ≤ 70 then some (n - 55)
  else none

def escapeChar : Char → Option Char
  | '"' => some '"'
  | '\\' => some '\\'
  | '/' => some '/'
  | 'b' => some '\x08'
  | 'f' => some '\x0c'
  | 'n' => some '\n'
  | 'r' => some '\r'
  | 't' => some '\t'
  | _ => none

/-- Body of a JSON string literal, after the opening quote: returns the
decoded characters and the remaining input after the closing quote. -/
def parseStringBody : List Char → Option (List Char × List Char)
  | [] => none
  | '"' :: rest => some ([], rest)
  | '\\' :: 'u' :: a :: b :: c :: d :: rest =>
    match hexVal a, hexVal b, hexVal c, hexVal d with
    | some ha, some hb, some hc, some hd =>
      match parseStringBody rest with
      | some (s, r) => some (Char.ofNat (((ha * 16 + hb) * 16 + hc) * 16 + hd) :: s, r)
      | none => none
    | _, _, _, _ => none
  | '\\' :: e :: rest =>
    match escapeChar e with
    | some ec =>
      match parseStringBody rest with
      | some (s, r) => some (ec :: s, r)
      | none => none
    | none => none
  | c :: rest =>
    if c.toNat < 32 then none
    else
      match parseStringBody rest with
      | some (s, r) => some (c :: s, r)
      | none => none

def digitsToNat (l : List Char) : Nat :=
  l.foldl (fun acc c => acc * 10 + (c.toNat - 48)) 0

/-- JSON number literal: `-?(0|[1-9][0-9]*)(.[0-9]+)?([eE][+-]?[0-9]+)?`. -/
def parseNumber (s : List Char) : Option (Json × List Char) :=
  let (neg, s₁) := match s with
    | '-' :: r => (true, r)
    | _ => (false, s)
  match s₁ with
  | [] => none
  | c :: _ =>
    if !c.isDigit then none
    else
      let intDigits := s₁.takeWhile Char.isDigit
      let r₁ := s₁.dropWhile Char.isDigit
      if c == '0' && intDigits.length != 1 then none
      else
        let fracState : Option (List Char × List Char) := match r₁ with
          | '.' :: r =>
            let fd := r.takeWhile Char.isDigit
            if fd.isEmpty then none else some (fd, r.dropWhile Char.isDigit)
          | _ => some ([], r₁)
        match fracState with
        | none => none
        | some (fracDigits, r₂) =>
          let expState : Option (Int × List Char) := match r₂ with
            | 'e' :: r => parseExpTail r
            | 'E' :: r => parseExpTail r
            | _ => some (0, r₂)
          match expState with
          | none => none
          | some (expVal, r₃) =>
            let mant : Int := (digitsToNat (intDigits ++ fracDigits) : Int)
            let mant := if neg then -mant else mant
            some (.num mant (expVal - (fracDigits.length : Int)), r₃)
where
  parseExpTail (r : List Char) : Option (Int × List Char) :=
    let (esign, r') := match r with
      | '+' :: q => ((1 : Int), q)
      | '-' :: q => ((-1 : Int), q)
      | _ => ((1 : Int), r)
    let ed := r'.takeWhile Char.isDigit
    if ed.isEmpty then none
    else some (esign * (digitsToNat ed : Int), r'.dropWhile Char.isDigit)

/-- Parsing mode: a whole value, the member list of an object after `\x7b`,
or the element list of an array after `[`. -/
inductive PMode where
  | value : PMode
  | objTail : PMode
  | arrTail : PMode

/-- Fuel-based recursive-descent core of `JSON.parse`.  In `objTail` mode the
result is the `Json.obj` of the remaining members including the closing brace;
in `arrTail` mode the `Json.arr` of the remaining elements. -/
def parseP : Nat → PMode → List Char → Option (Json × List Char)
  | 0, _, _ => none
  | fuel+1, .value, s =>
    match s.dropWhile isJsonWs with
    | [] => none
    | c :: rest =>
      if c == '\x7b' then
        match rest.dropWhile isJsonWs with
        | '\x7d' :: r₂ => some (.obj [], r₂)
        | _ => parseP fuel .objTail rest
      else if c == '[' then
        match rest.dropWhile isJsonWs with
        | ']' :: r₂ => some (.arr [], r₂)
        | _ => parseP fuel .arrTail rest
      else if c == '"' then
        match parseStringBody rest with
        | some (str, r₂) => some (.str str, r₂)
        | none => none
      else if c == 't' then
        match rest with
        | 'r' :: 'u' :: 'e' :: r₂ => some (.bool true, r₂)
        | _ => none
      else if c == 'f' then
        match rest with
        | 'a' :: 'l' :: 's' :: 'e' :: r₂ => some (.bool false, r₂)
        | _ => none
      else if c == 'n' then
        match rest with
        | 'u' :: 'l' :: 'l' :: r₂ => some (.null, r₂)
        | _ => none
      else parseNumber (c :: rest)
  | fuel+1, .objTail, s =>
    match s.dropWhile isJsonWs with
    | '"' :: rest =>
      match parseStringBody rest with
      | some (key, r₁) =>
        match r₁.dropWhile isJsonWs with
        | ':' :: r₂ =>
          match parseP fuel .value r₂ with
          | some (v, r₃) =>
            match r₃.dropWhile isJsonWs with
            | ',' :: r₄ =>
              match parseP fuel .objTail r₄ with
              | some (.obj fields, r₅) => some (.obj ((key, v) :: fields), r₅)
              | _ => none
            | '\x7d' :: r₄ => some (.obj [(key, v)], r₄)
            | _ => none
          | none => none
        | _ => none
      | none => none
    | _ => none
  | fuel+1, .arrTail, s =>
    match parseP fuel .value s with
    | some (v, r₁) =>
      match r₁.dropWhile isJsonWs with
      | ',' :: r₂ =>
        match parseP fuel .arrTail r₂ with
        | some (.arr elems, r₃) => some (.arr (v :: elems), r₃)
        | _ => none
      | ']' :: r₂ => some (.arr [v], r₂)
      | _ => none
    | none => none

/-- `JSON.parse`: parse one value and require only whitespace to follow. -/
def jsonParse (s : List Char) : Option Json :=
  match parseP (2 * s.length + 2) .value s with
  | some (v, rest) => if (rest.dropWhile isJsonWs).isEmpty then some v else none
  | none => none

/-! ## JavaScript value semantics: truthiness, property access, string coercion -/

/-- JavaScript property lookup on a parsed object; later duplicate keys win,
as with `JSON.parse`.  `none` stands for `undefined`. -/
def lookupField : List (List Char × Json) → List Char → Option Json
  | [], _ => none
  | kv :: rest, k =>
    match lookupField rest k with
    | some v => some v
    | none => if kv.1 = k then some kv.2 else none

/-- Property access `j[k]`; primitives yield `undefined` for our keys. -/
def getField (j : Json) (k : List Char) : Option Json :=
  match j with
  | .obj fields => lookupField fields k
  | _ => none

/-- Property access through a possibly-`undefined` receiver, as in
`event.tool_call.name` after a truthiness guard. -/
def jsGet (j : Option Json) (k : List Char) : Option Json :=
  match j with
  | some v => getField v k
  | none => none

/-- JavaScript truthiness of a possibly-`undefined` JSON value. -/
def truthy : Option Json → Bool
  | none => false
  | some .null => false
  | some (.bool b) => b
  | some (.num m _) => m != 0
  | some (.str s) => !s.isEmpty
  | some (.arr _) => true
  | some (.obj _) => true

def intChars (m : Int) : List Char := (toString m).data

def numChars (m e : Int) : List Char :=
  if e = 0 then intChars m else intChars m ++ 'e' :: intChars e

def joinCommas : List (List Char) → List Char
  | [] => []
  | [x] => x
  | x :: xs => x ++ ',' :: joinCommas xs

/-- JavaScript `String(v)` coercion.  The fuel is consulted only for arrays
nested inside arrays (JavaScript joins them recursively); every other shape
is rendered directly. -/
def jsStringOfJsonF (fuel : Nat) (j : Json) : List Char :=
  match j with
  | .null => "null".data
  | .bool true => "true".data
  | .bool false => "false".data
  | .num m e => numChars m e
  | .str s => s
  | .obj _ => "[object Object]".data
  | .arr elems =>
    match fuel with
    | 0 => []
    | fuel+1 =>
      joinCommas (elems.map (fun e => match e with
        | .null => []
        | e => jsStringOfJsonF fuel e))

/-- JavaScript string coercion of a possibly-`undefined` value, as happens in
template literals and `+=`.  The array-nesting fuel is far beyond any value a
notebook event stream can carry. -/
def jsToString (j : Option Json) : List Char :=
  match j with
  | none => "undefined".data
  | some v => jsStringOfJsonF 1000 v

/-! ## Client stream consumer (`src/promptCell.ts`, `_callAI`)

State of the SSE consumer loop: the accumulated markdown output, the
partial-line byte buffer, and the single tracked open tool call. -/

/-- The object built at `event.tool_call`: `currentToolCall = \x7b name, id, input: '' \x7d`.
`name` and `id` hold raw JavaScript values (possibly `undefined`). -/
structure ToolCallState where
  name : Option Json
  id : Option Json
  input : List Char

/-- Mutable locals of the `_callAI` read loop: `outputText`, `buffer`,
`currentToolCall`. -/
structure ConsumerState where
  outputText : List Char
  buffer : List Char
  currentToolCall : Option ToolCallState

/-- Truthiness of the `kernelId : string | undefined` parameter. -/
def kernelIdTruthy : Option (List Char) → Bool
  | none => false
  | some s => !s.isEmpty

/-- Modelled from the spec: `renderToolResult` lives in
`src/toolResultRenderer.ts`, which is not among the available sources and whose
rendering the spec leaves opaque; the consumer claims depend only on it being a
deterministic function of the `tool_result` payload, so it is modelled as a
fixed rendering of that payload. -/
def renderToolResult (result : Option Json) : List Char :=
  "\n\n".data ++ jsToString result ++ "\n".data

/-- Markdown appended when a `tool_call` event arrives:
`\n\n🔧 *Calling tool: \`$\x7bevent.tool_call.name\x7d\`...*\n`. -/
def toolCallBanner (name : Option Json) : List Char :=
  "\n\n🔧 *Calling tool: `".data ++ jsToString name ++ "`...*\n".data

/-- The `if/else` chain applied to one parsed SSE event (`promptCell.ts:379-410`). -/
def handleEvent (kernelId : Option (List Char)) (st : ConsumerState) (event : Json) :
    ConsumerState :=
  if truthy (getField event "text".data) then
    { st with outputText := st.outputText ++ jsToString (getField event "text".data) }
  else if truthy (getField event "error".data) then
    { st with outputText := st.outputText ++ "\n\n**Error:** ".data
        ++ jsToString (getField event "error".data) ++ "\n".data }
  else if truthy (getField event "done".data) then
    if st.currentToolCall.isSome && !kernelIdTruthy kernelId then
      { st with outputText := st.outputText
          ++ "\n**Tool Error:** Tools require an active kernel.\n".data }
    else st
  else if truthy (getField event "tool_call".data) then
    { st with
        currentToolCall := some
          { name := jsGet (getField event "tool_call".data) "name".data
            id := jsGet (getField event "tool_call".data) "id".data
            input := [] }
        outputText := st.outputText
          ++ toolCallBanner (jsGet (getField event "tool_call".data) "name".data) }
  else if truthy (getField event "tool_input".data) && st.currentToolCall.isSome then
    { st with currentToolCall :=
        match st.currentToolCall with
        | some c => some { c with
            input := c.input ++ jsToString (getField event "tool_input".data) }
        | none => none }
  else if truthy (getField event "tool_result".data) then
    { st with
        outputText := st.outputText
          ++ renderToolResult (jsGet (getField event "tool_result".data) "result".data)
        currentToolCall := none }
  else st

/-- `rawLine.replace(/\r$/, '')`. -/
def stripCR (l : List Char) : List Char :=
  if l.getLast? = some '\r' then l.dropLast else l

/-- Processing of one raw line of the SSE stream: strip the trailing carriage
return, require the `data: ` prefix, `JSON.parse` the payload (ignoring
parse failures), then dispatch on the event shape. -/
def handleLine (kernelId : Option (List Char)) (st : ConsumerState) (rawLine : List Char) :
    ConsumerState :=
  let line := stripCR rawLine
  if ("data: ".data).isPrefixOf line then
    match jsonParse (line.drop 6) with
    | none => st
    | some event => handleEvent kernelId st event
  else st

/-- JavaScript `str.split('\n')` on character lists. -/
def splitNl : List Char → List (List Char)
  | [] => [[]]
  | c :: rest =>
    if c == '\n' then [] :: splitNl rest
    else
      match splitNl rest with
      | [] => [[c]]
      | l :: ls => (c :: l) :: ls

/-- One iteration of the read loop on a decoded chunk:
`buffer += chunk; lines = buffer.split('\n'); buffer = lines.pop() || '';`
then each complete line goes through `handleLine`. -/
def processChunk (kernelId : Option (List Char)) (st : ConsumerState) (chunk : List Char) :
    ConsumerState :=
  let parts := splitNl (st.buffer ++ chunk)
  { parts.dropLast.foldl (handleLine kernelId) st with buffer := parts.getLastD [] }

/-! ## Prompt parser (`src/promptParser.ts`)

The regex scans are embedded as left-to-right character scans with explicit
fuel; the fuel is set to the input length, which every scan strictly exceeds
per consumed character, so it never runs out. -/

/-- Scan for `/\$([a-zA-Z_][a-zA-Z0-9_]*)/g`: all matches of `$name`, in
order, duplicates included.  A match consumes the matched text (`exec`
continues at `lastIndex`); a failed position advances by one character. -/
def scanVarsF : Nat → List Char → List (List Char)
  | 0, _ => []
  | _, [] => []
  | _+1, [_] => []
  | fuel+1, c :: d :: rest' =>
    if c == '$' then
      if isIdentStart d then
        (d :: takeWordChars rest') :: scanVarsF fuel (rest'.drop (takeWordChars rest').length)
      else scanVarsF fuel (d :: rest')
    else scanVarsF fuel (d :: rest')

def scanVars (t : List Char) : List (List Char) := scanVarsF t.length t

/-- Truthiness of the one-character lookbehind window. -/
def prevWord : Option Char → Bool
  | none => false
  | some c => isWordChar c

/-- Scan for `/(?<!\w)&([a-zA-Z_][a-zA-Z0-9_]*)/g`: all matches of `&name`
whose `&` is not preceded by a word character.  `prev` is the character just
before the current position in the original text (`none` at the start). -/
def scanFuncsF : Nat → Option Char → List Char → List (List Char)
  | 0, _, _ => []
  | _, _, [] => []
  | _+1, _, [_] => []
  | fuel+1, prev, c :: d :: rest' =>
    if c == '&' && !prevWord prev then
      if isIdentStart d then
        (d :: takeWordChars rest') ::
          scanFuncsF fuel (some ((takeWordChars rest').getLastD d))
            (rest'.drop (takeWordChars rest').length)
      else scanFuncsF fuel (some c) (d :: rest')
    else scanFuncsF fuel (some c) (d :: rest')

def scanFuncs (t : List Char) : List (List Char) := scanFuncsF t.length none t

/-- `if (!list.includes(x)) list.push(x)`. -/
def pushUnique (acc : List (List Char)) (x : List Char) : List (List Char) :=
  if acc.contains x then acc else acc ++ [x]

/-- The accumulation in the two `while ((match = re.exec(text)))` loops of
`parsePrompt`. -/
def dedupFirst (l : List (List Char)) : List (List Char) :=
  l.foldl pushUnique []

structure ParsedPrompt where
  varRefs : List (List Char)
  funcRefs : List (List Char)

/-- `parsePrompt` (`promptParser.ts:16-49`); the fields `varRefs`/`funcRefs`
embed the source's `variables`/`functions` (the original names are reserved
words here). -/
def parsePrompt (text : List Char) : ParsedPrompt :=
  { varRefs := dedupFirst (scanVars text)
    funcRefs := dedupFirst (scanFuncs text) }

/-- Canonical first-occurrence deduplication: keep each element at its first
occurrence, in order.  Used to characterise `dedupFirst`. -/
def firstOccurF : Nat → List (List Char) → List (List Char)
  | 0, _ => []
  | _, [] => []
  | fuel+1, x :: xs => x :: firstOccurF fuel (xs.filter (fun y => !(y == x)))

def firstOccur (l : List (List Char)) : List (List Char) := firstOccurF l.length l

/-- Word-boundary test of `\b` placed after an identifier: satisfied at end of
input or before a non-word character. -/
def boundaryOk (l : List Char) : Bool :=
  match l with
  | [] => true
  | c :: _ => !isWordChar c

/-- One global-replace pass of `text.replace(new RegExp("\\$" + name + "\\b", 'g'),
() => value)` for an identifier `name`: scan left to right, replace each
occurrence of `$name` followed by a word boundary, never rescanning the
replacement value. -/
def substVarF (name value : List Char) : Nat → List Char → List Char
  | _, [] => []
  | 0, l => l
  | fuel+1, c :: rest =>
    if c == '$' && name.isPrefixOf rest && boundaryOk (rest.drop name.length) then
      value ++ substVarF name value fuel (rest.drop name.length)
    else c :: substVarF name value fuel rest

def substVarOne (name value text : List Char) : List Char :=
  substVarF name value text.length text

/-- `substituteVariables` (`promptParser.ts:55-68`): one replace pass per
`Object.entries` binding, in order, each operating on the previous result. -/
def substituteVariables (text : List Char) (vars : List (List Char × List Char)) :
    List Char :=
  vars.foldl (fun acc kv => substVarOne kv.1 kv.2 acc) text

/-- The pass `.replace(/(?<!\w)&([a-zA-Z_][a-zA-Z0-9_]*)/g, '')`: same scan as
`scanFuncsF`, deleting each match from the output. -/
def removeFuncF : Nat → Option Char → List Char → List Char
  | 0, _, l => l
  | _, _, [] => []
  | _+1, _, [c] => [c]
  | fuel+1, prev, c :: d :: rest' =>
    if c == '&' && !prevWord prev then
      if isIdentStart d then
        removeFuncF fuel (some ((takeWordChars rest').getLastD d))
          (rest'.drop (takeWordChars rest').length)
      else c :: removeFuncF fuel (some c) (d :: rest')
    else c :: removeFuncF fuel (some c) (d :: rest')

def removeFuncRefs (t : List Char) : List Char := removeFuncF t.length none t

/-- The pass `.replace(/\s+/g, ' ')`: each maximal whitespace run becomes one
space. -/
def collapseWsF : Nat → List Char → List Char
  | 0, l => l
  | _, [] => []
  | fuel+1, c :: rest =>
    if isJsSpace c then ' ' :: collapseWsF fuel (rest.dropWhile isJsSpace)
    else c :: collapseWsF fuel rest

def collapseWs (l : List Char) : List Char := collapseWsF l.length l

/-- JavaScript `String.prototype.trim`. -/
def trimJs (l : List Char) : List Char :=
  ((l.dropWhile isJsSpace).reverse.dropWhile isJsSpace).reverse

/-- `removeFunctionReferences` (`promptParser.ts:75-80`). -/
def removeFunctionReferences (text : List Char) : List Char :=
  trimJs (collapseWs (removeFuncRefs text))

/-- `processPrompt` (`promptParser.ts:85-92`). -/
def processPrompt (text : List Char) (vars : List (List Char × List Char)) : List Char :=
  trimJs (removeFunctionReferences (substituteVariables text vars))

/-! ## Server-side components modelled from the spec

The argument sanitizer / tool dispatcher and the conversation loop live in the
Jupyter server extension (`ai_jup/handlers.py`), which is not among the
available sources; they are modelled from the spec (sections 4.2, 4.3, 4.5, 8). -/

inductive DispatchError where
  | invalidArguments : DispatchError
  | unknownTool : DispatchError

/-- Modelled from the spec: the ArgumentSanitizer of `ai_jup/handlers.py`
(missing from the sources).  Per spec 4.2: the payload must be an
object; every key must match the strict identifier pattern, an unmatched key
failing the whole call; values stay native JSON values, passed through as
structured data with no conversion through another language's literal syntax. -/
def sanitizeArgs (payload : Json) : Except DispatchError (List (List Char × Json)) :=
  match payload with
  | .obj fields =>
    if fields.all (fun kv => isIdentName kv.1) then .ok fields
    else .error .invalidArguments
  | _ => .error .invalidArguments

/-- One recorded invocation of the execution backend: the tool name plus the
sanitized keyword-argument set, always structured data, never source text. -/
structure BackendCall where
  tool : List Char
  args : List (List Char × Json)

/-- Modelled from the spec: the ToolDispatcher of `ai_jup/handlers.py`
(missing from the sources).  Per spec 4.3: resolve the tool name, sanitize the
arguments, and only then submit the call to the execution backend.  The second
component records every backend invocation (the spec's "recording backend
double"). -/
def dispatchTool (available : List (List Char)) (name : List Char) (payload : Json) :
    Except DispatchError (List (List Char × Json)) × List BackendCall :=
  if name ∈ available then
    match sanitizeArgs payload with
    | .ok args => (.ok args, [⟨name, args⟩])
    | .error e => (.error e, [])
  else (.error .unknownTool, [])

/-- One model round-trip: the text streamed during the turn and the tool calls
requested at its end. -/
structure ModelTurn where
  text : List Char
  toolRequests : List (List Char)

inductive LoopOutcome where
  | normalDone : LoopOutcome
  | stepBoundReached : LoopOutcome
deriving DecidableEq

/-- Observable summary of one conversation: the final step counter, the number
of model round-trips performed, the tool requests actually executed (in
order), and how the loop terminated. -/
structure LoopTrace where
  steps : Nat
  modelTurns : Nat
  executedTools : List (List Char)
  outcome : LoopOutcome

/-- Modelled from the spec: the ConversationLoop of `ai_jup/handlers.py`
(missing from the sources).  Per spec 4.5 and scenario A of section 8: each
iteration performs one model turn; a turn with no tool requests terminates
normally; otherwise, if the step counter has reached the bound, the loop
terminates with the step-bound notice without executing the requested tools;
otherwise all of the turn's tools are executed, the counter increments once,
and the loop continues.  `turnAt n` is the model's response to round-trip `n`.
The fuel only bounds the recursion; `maxSteps + 1 - steps` of it always
suffices, so the fuel-exhausted branch is unreachable from `runLoop`. -/
def runLoopF (turnAt : Nat → ModelTurn) (maxSteps : Nat) :
    Nat → Nat → Nat → List (List Char) → LoopTrace
  | 0, steps, nTurns, executed => ⟨steps, nTurns, executed, .stepBoundReached⟩
  | fuel+1, steps, nTurns, executed =>
    let t := turnAt nTurns
    if t.toolRequests = [] then ⟨steps, nTurns + 1, executed, .normalDone⟩
    else if maxSteps ≤ steps then ⟨steps, nTurns + 1, executed, .stepBoundReached⟩
    else runLoopF turnAt maxSteps fuel (steps + 1) (nTurns + 1)
      (executed ++ t.toolRequests)

def runLoop (turnAt : Nat → ModelTurn) (maxSteps : Nat) : LoopTrace :=
  runLoopF turnAt maxSteps (maxSteps + 1) 0 0 []

/-! ## Failure handling and the read loop of `_callAI` (`src/promptCell.ts`) -/

/-- The error text written by the `catch` block of `_callAI`
(`promptCell.ts:423-435`). -/
def connectionFailureText (errString : List Char) : List Char :=
  "**Error:** Failed to connect to AI backend.\n\n".data ++ errString

/-- The `catch` block of `_callAI`: an `AbortError` (raised when the output
cell's disposal fires the abort controller) is swallowed; any other failure
writes the connection-error text, provided the output cell still exists. -/
def handleConnectionFailure (errName errString : List Char) (cellDisposed : Bool) :
    Option (List Char) :=
  if errName = "AbortError".data then none
  else if cellDisposed = false then some (connectionFailureText errString)
  else none

/-- Disposal test at iteration `i` of the read loop: the cell is disposed from
iteration `disposedAfter` on (`none` = never disposed). -/
def disposedAt : Option Nat → Nat → Bool
  | none, _ => false
  | some n, i => n ≤ i

/-- The `while (true)` read loop of `_callAI`: before acting on a read the
loop checks `done || outputCell.isDisposed` and breaks, so chunks arriving at
or after the disposal point are never processed. -/
def runConsumerF (kernelId : Option (List Char)) (disposedAfter : Option Nat) :
    Nat → ConsumerState → List (List Char) → ConsumerState
  | _, st, [] => st
  | i, st, c :: rest =>
    if disposedAt disposedAfter i then st
    else runConsumerF kernelId disposedAfter (i + 1) (processChunk kernelId st c) rest

def runConsumer (kernelId : Option (List Char)) (st : ConsumerState)
    (chunks : List (List Char)) (disposedAfter : Option Nat) : ConsumerState :=
  runConsumerF kernelId disposedAfter 0 st chunks

/-! ## Proof devices -/

/-- `split('\n')` presented as (complete lines, trailing partial line); used to
reason about `splitNl`. -/
def splitLinesP : List Char → List (List Char) × List Char
  | [] => ([], [])
  | c :: rest =>
    let r := splitLinesP rest
    if c == '\n' then ([] :: r.1, r.2)
    else
      match r.1 with
      | [] => ([], c :: r.2)
      | l :: ls => ((c :: l) :: ls, r.2)

/-- The six top-level keys the event dispatch of `_callAI` recognises. -/
def recognizedKeys : List (List Char) :=
  ["text".data, "error".data, "done".data, "tool_call".data,
   "tool_input".data, "tool_result".data]

/-- Initial state of the consumer loop. -/
def initConsumer : ConsumerState := ⟨[], [], none⟩

/-- Demo frame: `tool_call` opening call `t1` on tool `f`. -/
def frameCall1 : List Char :=
  "data: \x7b\"tool_call\":\x7b\"id\":\"t1\",\"name\":\"f\"\x7d\x7d".data

/-- Demo frame: a `tool_input` fragment for the open call. -/
def frameInput1 : List Char :=
  "data: \x7b\"tool_input\":\"\x7b\\\"x\\\": 1\"\x7d".data

/-- Demo frame: a second `tool_call` (`t2` on tool `g`) arriving while `t1` is
still open. -/
def frameCall2 : List Char :=
  "data: \x7b\"tool_call\":\x7b\"id\":\"t2\",\"name\":\"g\"\x7d\x7d".data

/-! ## Helper lemmas -/

theorem lookupField_of_not_mem (fields : List (List Char × Json)) (k : List Char)
    (h : ∀ kv ∈ fields, kv.1 ≠ k) : lookupField fields k = none := by
  induction fields with
  | nil => rfl
  | cons kv rest ih =>
    simp only [lookupField]
    rw [ih (fun kv hkv => h kv (List.mem_cons_of_mem _ hkv))]
    simp [h kv (List.mem_cons_self _ _)]

theorem handleEvent_unknown_keys (k : Option (List Char)) (st : ConsumerState)
    (fields : List (List Char × Json)) (h : ∀ kv ∈ fields, kv.1 ∉ recognizedKeys) :
    handleEvent k st (.obj fields) = st := by
  have hkey : ∀ key, key ∈ recognizedKeys → lookupField fields key = none := by
    intro key hk
    exact lookupField_of_not_mem fields key (fun kv hkv he => h kv hkv (he ▸ hk))
  have h1 := hkey "text".data (by simp [recognizedKeys])
  have h2 := hkey "error".data (by simp [recognizedKeys])
  have h3 := hkey "done".data (by simp [recognizedKeys])
  have h4 := hkey "tool_call".data (by simp [recognizedKeys])
  have h5 := hkey "tool_input".data (by simp [recognizedKeys])
  have h6 := hkey "tool_result".data (by simp [recognizedKeys])
  simp [handleEvent, getField, h1, h2, h3, h4, h5, h6, truthy]

/-! ## C4: malformed frames are ignored without terminating the consumer -/

/-- C4: a line without the `data: ` prefix, or whose payload fails to parse as
JSON, leaves the consumer state (output text, open tool call, buffer)
unchanged, and the next frame is processed exactly as if the malformed frame
had never arrived. -/
theorem claim4_malformed_frames_ignored (k : Option (List Char)) (st : ConsumerState)
    (l l₂ : List Char)
    (h : ("data: ".data).isPrefixOf (stripCR l) = false ∨
      jsonParse ((stripCR l).drop 6) = none) :
    handleLine k st l = st ∧ handleLine k (handleLine k st l) l₂ = handleLine k st l₂ := by
  have h1 : handleLine k st l = st := by
    rcases h with hp | hp
    · simp [handleLine, hp]
    · cases hq : ("data: ".data).isPrefixOf (stripCR l) <;> simp [handleLine, hq, hp]
  exact ⟨h1, by rw [h1]⟩

/-- C4 witness: a frame with truncated JSON, then a frame with no `data: `
prefix, are both ignored from the initial state, and a well-formed text frame
is still processed afterwards. -/
theorem claim4_witness :
    handleLine none initConsumer ("data: \x7b\"text\": \"hi".data) = initConsumer ∧
    handleLine none (handleLine none initConsumer ("data: \x7b\"text\": \"hi".data))
        ("data: \x7b\"text\":\"ok\"\x7d".data) =
      handleLine none initConsumer ("data: \x7b\"text\":\"ok\"\x7d".data) := by
  exact claim4_malformed_frames_ignored none initConsumer
    ("data: \x7b\"text\": \"hi".data) ("data: \x7b\"text\":\"ok\"\x7d".data)
    (Or.inr rfl)

/-! ## C7: CRLF tolerance and unknown event shapes -/

/-- C7: a trailing carriage return is stripped before prefix matching, so a
CRLF-terminated frame is processed identically to its LF-terminated form; and
a parsed event object all of whose top-level keys are unrecognized leaves the
consumer state unchanged. -/
theorem claim7_crlf_and_unknown_keys (k : Option (List Char)) (st : ConsumerState)
    (l : List Char) (fields : List (List Char × Json))
    (h1 : l.getLast? ≠ some '\r')
    (h2 : ∀ kv ∈ fields, kv.1 ∉ recognizedKeys) :
    handleLine k st (l ++ ['\r']) = handleLine k st l ∧
    handleEvent k st (.obj fields) = st := by
  constructor
  · have hs : stripCR (l ++ ['\r']) = stripCR l := by
      simp [stripCR, List.getLast?_concat, List.dropLast_concat, h1]
    simp only [handleLine, hs]
  · exact handleEvent_unknown_keys k st fields h2

/-- C7 witness: a CRLF-terminated text frame acts like its LF form, and a
parsed event with only the unknown key `foo` is ignored. -/
theorem claim7_witness :
    handleLine none initConsumer ("data: \x7b\"text\":\"ok\"\x7d".data ++ ['\r']) =
      handleLine none initConsumer ("data: \x7b\"text\":\"ok\"\x7d".data) ∧
    handleEvent none initConsumer (.obj [("foo".data, .num 1 0)]) = initConsumer := by
  exact claim7_crlf_and_unknown_keys none initConsumer
    ("data: \x7b\"text\":\"ok\"\x7d".data) [("foo".data, .num 1 0)]
    (by decide) (by decide)

/-! ## C3: overlapping tool calls are silently replaced (claim corrected) -/

/-- C3 counterexample: after `tool_call(t1, f)` and a `tool_input` fragment, a
second `tool_call(t2, g)` arrives while `t1` is still open; the consumer
replaces `currentToolCall` wholesale, and the earlier call's accumulated
partial input is no longer anywhere in the state — there is no explicit
overlapping-call policy, contradicting the claim. -/
theorem claim3_counterexample :
    (handleLine none (handleLine none initConsumer frameCall1) frameInput1).currentToolCall =
      some ⟨some (.str ['f']), some (.str ['t', '1']),
        "\x7b\"x\": 1".data⟩ ∧
    (handleLine none (handleLine none (handleLine none initConsumer frameCall1) frameInput1)
        frameCall2).currentToolCall =
      some ⟨some (.str ['g']), some (.str ['t', '2']), []⟩ := by
  exact ⟨rfl, rfl⟩

/-- C3 (amended): whenever a `tool_call` event is dispatched (the earlier
branches of the event chain not having fired), the consumer unconditionally
overwrites `currentToolCall` with a fresh record for the new call — empty
input — regardless of any open call in the current state; the earlier call's
accumulated input is silently dropped. -/
theorem claim3_amended_silent_replacement (k : Option (List Char)) (st : ConsumerState)
    (ev : Json)
    (h1 : truthy (getField ev "text".data) = false)
    (h2 : truthy (getField ev "error".data) = false)
    (h3 : truthy (getField ev "done".data) = false)
    (h4 : truthy (getField ev "tool_call".data) = true) :
    handleEvent k st ev =
      { st with
          currentToolCall := some
            { name := jsGet (getField ev "tool_call".data) "name".data
              id := jsGet (getField ev "tool_call".data) "id".data
              input := [] }
          outputText := st.outputText
            ++ toolCallBanner (jsGet (getField ev "tool_call".data) "name".data) } := by
  simp [handleEvent, h1, h2, h3, h4]

/-- C3 witness: the amended statement applied to the demo second `tool_call`
event while call `t1` is open with accumulated input. -/
theorem claim3_witness :
    handleEvent none
      ⟨[], [], some ⟨some (.str ['f']), some (.str ['t', '1']), "\x7b\"x\": 1".data⟩⟩
      (.obj [("tool_call".data,
        .obj [("id".data, .str "t2".data), ("name".data, .str "g".data)])]) =
      { outputText := toolCallBanner (some (.str "g".data))
        buffer := []
        currentToolCall := some ⟨some (.str "g".data), some (.str "t2".data), []⟩ } := by
  have h := claim3_amended_silent_replacement none
    ⟨[], [], some ⟨some (.str ['f']), some (.str ['t', '1']), "\x7b\"x\": 1".data⟩⟩
    (.obj [("tool_call".data,
      .obj [("id".data, .str "t2".data), ("name".data, .str "g".data)])])
    rfl rfl rfl rfl
  exact h

/-! ## C6: variable substitution -/

theorem substVarF_congr (name value : List Char) :
    ∀ (f₁ : Nat) (l : List Char) (f₂ : Nat), l.length ≤ f₁ → l.length ≤ f₂ →
      substVarF name value f₁ l = substVarF name value f₂ l := by
  intro f₁
  induction f₁ with
  | zero =>
    intro l f₂ h1 _
    rw [List.length_eq_zero.mp (Nat.le_zero.mp h1)]
    cases f₂ <;> rfl
  | succ g ih =>
    intro l f₂ h1 h2
    cases l with
    | nil => cases f₂ <;> rfl
    | cons c rest =>
      cases f₂ with
      | zero => exact absurd h2 (by simp)
      | succ g₂ =>
        have hr1 : rest.length ≤ g := by simp at h1; omega
        have hr2 : rest.length ≤ g₂ := by simp at h2; omega
        have hd1 : (rest.drop name.length).length ≤ g :=
          le_trans (by simp) hr1
        have hd2 : (rest.drop name.length).length ≤ g₂ :=
          le_trans (by simp) hr2
        simp only [substVarF]
        split
        · rw [ih (rest.drop name.length) g₂ hd1 hd2]
        · rw [ih rest g₂ hr1 hr2]

theorem isPrefixOf_append_self (n t : List Char) : n.isPrefixOf (n ++ t) = true := by
  rw [List.isPrefixOf_iff_prefix]
  exact List.prefix_append n t

/-- Core of C6: one replace pass rewrites `pre ++ "$name" ++ suf` to
`pre ++ value ++ <the pass applied to suf>` whenever `pre` contains no `$`
and `suf` starts at a word boundary. -/
theorem substVarF_replaces (name value : List Char) :
    ∀ (pre suf : List Char) (f : Nat),
      (pre ++ '$' :: (name ++ suf)).length ≤ f → '$' ∉ pre → boundaryOk suf = true →
      substVarF name value f (pre ++ '$' :: (name ++ suf)) =
        pre ++ value ++ substVarOne name value suf := by
  intro pre
  induction pre with
  | nil =>
    intro suf f hf _ hb
    cases f with
    | zero => exact absurd hf (by simp)
    | succ g =>
      have hsuf : suf.length ≤ g := by simp [List.length_append] at hf; omega
      simp only [List.nil_append, substVarF]
      rw [if_pos]
      · rw [List.drop_left]
        rw [substVarF_congr name value g suf suf.length hsuf (le_refl _)]
        rfl
      · simp [isPrefixOf_append_self, List.drop_left, hb]
  | cons p pre' ih =>
    intro suf f hf hpre hb
    cases f with
    | zero => exact absurd hf (by simp)
    | succ g =>
      have hp : p ≠ '$' := fun he => hpre (he ▸ List.mem_cons_self _ _)
      have hlen : (pre' ++ '$' :: (name ++ suf)).length ≤ g := by
        simp [List.length_append] at hf ⊢; omega
      simp only [List.cons_append, substVarF, List.append_eq]
      rw [if_neg]
      · rw [ih suf g hlen (fun hm => hpre (List.mem_cons_of_mem _ hm)) hb]
      · simp [hp]

/-- C6: variable substitution replaces a `$name` reference followed by a word
boundary with the variable's textual representation; in particular the full
prompt pipeline sends `"What is 5?"` for the prompt `"What is $x?"` with
`x ↦ "5"`. -/
theorem claim6_variable_substitution (name value pre suf : List Char)
    (hname : isIdentName name = true) (hpre : '$' ∉ pre) (hb : boundaryOk suf = true) :
    substituteVariables (pre ++ '$' :: (name ++ suf)) [(name, value)] =
      pre ++ value ++ substituteVariables suf [(name, value)] ∧
    processPrompt ("What is $x?".data) [("x".data, "5".data)] = "What is 5?".data := by
  constructor
  · show substVarOne name value (pre ++ '$' :: (name ++ suf)) =
      pre ++ value ++ substVarOne name value suf
    exact substVarF_replaces name value pre suf (pre ++ '$' :: (name ++ suf)).length
      (le_refl _) hpre hb
  · decide

/-- C6 witness: the core statement instantiated on the scenario prompt. -/
theorem claim6_witness :
    substituteVariables ("What is ".data ++ '$' :: ("x".data ++ "?".data))
        [("x".data, "5".data)] =
      "What is ".data ++ "5".data ++ substituteVariables "?".data [("x".data, "5".data)] ∧
    processPrompt ("What is $x?".data) [("x".data, "5".data)] = "What is 5?".data := by
  exact claim6_variable_substitution "x".data "5".data "What is ".data "?".data
    (by decide) (by decide) (by decide)

/-! ## C1: argument sanitisation (spec-modelled) -/

/-- Scenario B payload: arguments `ok = true`, `n = null`, and a third
argument whose *name* is `a b` — the name failing the identifier pattern (the
spec writes this argument as `"name": "a b"`). -/
def scenarioPayload : Json :=
  .obj [("ok".data, .bool true), ("n".data, .null), ("a b".data, .str "v".data)]

/-- C1: arguments reach the execution backend as native structured JSON values
(an accepted invocation carries exactly the payload's fields, with no textual
conversion through another language's literal syntax), and any payload with a
key failing the identifier pattern is rejected whole with `InvalidArguments`,
the backend never being invoked; in particular the Scenario B payload is
rejected with no recorded backend call, while its well-keyed restriction
delivers `true`/`null` to the backend as boolean/null values. -/
theorem claim1_sanitizer_safety (avail : List (List Char)) (name : List Char)
    (fields : List (List Char × Json))
    (hname : name ∈ avail) :
    ((∃ kv ∈ fields, isIdentName kv.1 = false) →
      dispatchTool avail name (.obj fields) = (.error .invalidArguments, [])) ∧
    ((∀ kv ∈ fields, isIdentName kv.1 = true) →
      dispatchTool avail name (.obj fields) = (.ok fields, [⟨name, fields⟩])) ∧
    dispatchTool ["mytool".data] "mytool".data scenarioPayload =
      (.error .invalidArguments, []) ∧
    dispatchTool ["mytool".data] "mytool".data
        (.obj [("ok".data, .bool true), ("n".data, .null)]) =
      (.ok [("ok".data, .bool true), ("n".data, .null)],
        [⟨"mytool".data, [("ok".data, .bool true), ("n".data, .null)]⟩]) := by
  refine ⟨?_, ?_, by rfl, by rfl⟩
  · rintro ⟨kv, hkv, hbad⟩
    have hall : fields.all (fun kv => isIdentName kv.1) = false := by
      cases hh : fields.all (fun kv => isIdentName kv.1) with
      | false => rfl
      | true => exact absurd (List.all_eq_true.mp hh kv hkv) (by simp [hbad])
    simp [dispatchTool, sanitizeArgs, hname, hall]
  · intro hgood
    have hall : fields.all (fun kv => isIdentName kv.1) = true :=
      List.all_eq_true.mpr hgood
    simp [dispatchTool, sanitizeArgs, hname, hall]

/-- C1 witness: the general parts applied to the Scenario B payload and to its
well-keyed restriction. -/
theorem claim1_witness :
    dispatchTool ["mytool".data] "mytool".data scenarioPayload =
      (.error .invalidArguments, []) ∧
    dispatchTool ["mytool".data] "mytool".data
        (.obj [("ok".data, .bool true), ("n".data, .null)]) =
      (.ok [("ok".data, .bool true), ("n".data, .null)],
        [⟨"mytool".data, [("ok".data, .bool true), ("n".data, .null)]⟩]) := by
  refine ⟨?_, ?_⟩
  · exact (claim1_sanitizer_safety ["mytool".data] "mytool".data
      [("ok".data, .bool true), ("n".data, .null), ("a b".data, .str "v".data)]
      (by simp)).1
      ⟨("a b".data, .str "v".data), by simp, by decide⟩
  · exact (claim1_sanitizer_safety ["mytool".data] "mytool".data
      [("ok".data, .bool true), ("n".data, .null)] (by simp)).2.1
      (by intro kv hkv; fin_cases hkv <;> decide)

/-! ## C5: step bound of the conversation loop (spec-modelled) -/

theorem runLoopF_inv (turnAt : Nat → ModelTurn) (maxSteps : Nat) :
    ∀ (fuel n : Nat) (executed : List (List Char)),
      maxSteps < n + fuel → n ≤ maxSteps →
      (runLoopF turnAt maxSteps fuel n n executed).steps ≤ maxSteps ∧
      (runLoopF turnAt maxSteps fuel n n executed).modelTurns =
        (runLoopF turnAt maxSteps fuel n n executed).steps + 1 ∧
      n ≤ (runLoopF turnAt maxSteps fuel n n executed).steps ∧
      (runLoopF turnAt maxSteps fuel n n executed).executedTools =
        executed ++
          ((List.range ((runLoopF turnAt maxSteps fuel n n executed).steps - n)).map
            (fun i => (turnAt (n + i)).toolRequests)).flatten := by
  intro fuel
  induction fuel with
  | zero =>
    intro n executed hfuel hle
    omega
  | succ g ih =>
    intro n executed hfuel hle
    simp only [runLoopF]
    split
    · exact ⟨hle, rfl, le_refl _, by simp⟩
    · split
      · exact ⟨hle, rfl, le_refl _, by simp⟩
      · rename_i hne hlt
        have h := ih (n + 1) (executed ++ (turnAt n).toolRequests) (by omega) (by omega)
        refine ⟨h.1, h.2.1, by have := h.2.2.1; omega, ?_⟩
        rw [h.2.2.2]
        have hs : n + 1 ≤ (runLoopF turnAt maxSteps g (n + 1) (n + 1)
            (executed ++ (turnAt n).toolRequests)).steps := h.2.2.1
        set S := (runLoopF turnAt maxSteps g (n + 1) (n + 1)
          (executed ++ (turnAt n).toolRequests)).steps with hS
        have hrange : S - n = (S - (n + 1)) + 1 := by omega
        rw [hrange, List.range_succ_eq_map]
        rw [List.map_cons, List.flatten_cons, List.map_map, Nat.add_zero, List.append_assoc]
        congr 3
        apply List.map_congr_left
        intro i _
        simp only [Function.comp_apply]
        congr 2
        omega

/-- C5: for every accepted request the step counter at termination is at most
the requested bound; the counter increments exactly once per model round-trip
(the number of round-trips is always the final counter plus one, and the
executed tools are exactly the per-turn request groups of the counted turns,
however many tools each turn requested); and with `max_steps = 0` a
tool-requesting first turn produces exactly one model turn, no tool execution,
and the `StepBoundReached` outcome. -/
theorem claim5_step_bound (turnAt : Nat → ModelTurn) (maxSteps : Nat)
    (h0 : maxSteps = 0 → (turnAt 0).toolRequests ≠ []) :
    (runLoop turnAt maxSteps).steps ≤ maxSteps ∧
    (runLoop turnAt maxSteps).modelTurns = (runLoop turnAt maxSteps).steps + 1 ∧
    (runLoop turnAt maxSteps).executedTools =
      ((List.range (runLoop turnAt maxSteps).steps).map
        (fun i => (turnAt i).toolRequests)).flatten ∧
    (maxSteps = 0 → runLoop turnAt 0 = ⟨0, 1, [], .stepBoundReached⟩) := by
  have h := runLoopF_inv turnAt maxSteps (maxSteps + 1) 0 [] (by omega) (by omega)
  refine ⟨h.1, h.2.1, by simpa using h.2.2.2, ?_⟩
  intro hz
  have hne := h0 hz
  simp only [runLoop, runLoopF]
  rw [if_neg hne, if_pos (by omega)]

/-- C5 witness: a model that always requests a tool, run with `max_steps = 0`:
one model turn, no executed tools, `StepBoundReached`, and the step counter
(0) is within the bound. -/
theorem claim5_witness :
    (runLoop (fun _ => ⟨"hi".data, ["t".data]⟩) 0).steps ≤ 0 ∧
    runLoop (fun _ => ⟨"hi".data, ["t".data]⟩) 0 = ⟨0, 1, [], .stepBoundReached⟩ := by
  have h := claim5_step_bound (fun _ => ⟨"hi".data, ["t".data]⟩) 0 (fun _ => by simp)
  exact ⟨h.1, h.2.2.2 rfl⟩

/-! ## C8: consumer-requested abort (cell disposal) -/

theorem runConsumerF_disposed (k : Option (List Char)) (n : Nat) :
    ∀ (chunks : List (List Char)) (i : Nat) (st : ConsumerState),
      runConsumerF k (some n) i st chunks =
        runConsumerF k none i st (chunks.take (n - i)) := by
  intro chunks
  induction chunks with
  | nil => intro i st; simp [runConsumerF]
  | cons c rest ih =>
    intro i st
    by_cases hni : n ≤ i
    · have : n - i = 0 := by omega
      simp [runConsumerF, disposedAt, this, hni]
    · have hgt : ¬(n - i = 0) := by omega
      have : n - i = (n - (i + 1)) + 1 := by omega
      rw [this]
      simp only [runConsumerF, List.take_succ_cons]
      rw [if_neg (by simp [disposedAt]; omega), if_neg (by simp [disposedAt])]
      exact ih (i + 1) (processChunk k st c)

/-- C8: when the consumer itself aborts (the output cell is disposed, firing
the abort controller), the read loop stops at the disposal point — chunks from
then on are never processed — and the resulting `AbortError` writes no error
message to the cell, whereas any other connection failure with the cell still
alive writes the connection-error message. -/
theorem claim8_abort_handling (k : Option (List Char)) (st : ConsumerState)
    (chunks : List (List Char)) (n : Nat) (errName errString : List Char) (d : Bool)
    (h : errName ≠ "AbortError".data) :
    runConsumer k st chunks (some n) = runConsumer k st (chunks.take n) none ∧
    handleConnectionFailure "AbortError".data errString d = none ∧
    handleConnectionFailure errName errString false = some (connectionFailureText errString) := by
  refine ⟨?_, by simp [handleConnectionFailure], by simp [handleConnectionFailure, h]⟩
  have hr := runConsumerF_disposed k n chunks 0 st
  simpa [runConsumer] using hr

/-- C8 witness: a two-chunk stream disposed after the first chunk processes
only the first chunk; an `AbortError` writes nothing; a genuine network
failure writes the connection-error text. -/
theorem claim8_witness :
    runConsumer none initConsumer
        ["data: \x7b\"text\":\"a\"\x7d\n".data, "data: \x7b\"text\":\"b\"\x7d\n".data]
        (some 1) =
      runConsumer none initConsumer
        (["data: \x7b\"text\":\"a\"\x7d\n".data, "data: \x7b\"text\":\"b\"\x7d\n".data].take 1)
        none ∧
    handleConnectionFailure "AbortError".data "network".data false = none ∧
    handleConnectionFailure "TypeError".data "network".data false =
      some (connectionFailureText "network".data) := by
  have h := claim8_abort_handling none initConsumer
    ["data: \x7b\"text\":\"a\"\x7d\n".data, "data: \x7b\"text\":\"b\"\x7d\n".data]
    1 "TypeError".data "network".data false (by decide)
  exact ⟨h.1, h.2.1, h.2.2⟩

/-! ## C2: byte-chunking is unobservable -/

theorem splitNl_eq (l : List Char) :
    splitNl l = (splitLinesP l).1 ++ [(splitLinesP l).2] := by
  induction l with
  | nil => rfl
  | cons c rest ih =>
    simp only [splitNl, splitLinesP]
    by_cases hc : c = '\n'
    · simp only [hc, beq_self_eq_true, if_pos, List.cons_append]
      rw [ih]
    · have hb : (c == '\n') = false := by simp [hc]
      simp only [hb, Bool.false_eq_true, if_false]
      rw [ih]
      cases hp : (splitLinesP rest).1 with
      | nil => simp [hp]
      | cons q qs => simp [hp]

theorem processChunk_eq (k : Option (List Char)) (st : ConsumerState) (chunk : List Char) :
    processChunk k st chunk =
      { (splitLinesP (st.buffer ++ chunk)).1.foldl (handleLine k) st with
          buffer := (splitLinesP (st.buffer ++ chunk)).2 } := by
  simp only [processChunk, splitNl_eq, List.dropLast_concat, List.getLastD_concat]

theorem handleEvent_buffer (k : Option (List Char)) (ev : Json) (o b₁ b₂ : List Char)
    (tc : Option ToolCallState) :
    handleEvent k ⟨o, b₁, tc⟩ ev = { handleEvent k ⟨o, b₂, tc⟩ ev with buffer := b₁ } := by
  simp only [handleEvent]
  split_ifs <;> rfl

theorem handleLine_buffer (k : Option (List Char)) (l : List Char) (o b₁ b₂ : List Char)
    (tc : Option ToolCallState) :
    handleLine k ⟨o, b₁, tc⟩ l = { handleLine k ⟨o, b₂, tc⟩ l with buffer := b₁ } := by
  simp only [handleLine]
  split
  · cases jsonParse ((stripCR l).drop 6) with
    | none => rfl
    | some ev => exact handleEvent_buffer k ev o b₁ b₂ tc
  · rfl

theorem foldl_handleLine_buffer (k : Option (List Char)) (ls : List (List Char)) :
    ∀ (o b₁ b₂ : List Char) (tc : Option ToolCallState),
      ls.foldl (handleLine k) ⟨o, b₁, tc⟩ =
        { ls.foldl (handleLine k) ⟨o, b₂, tc⟩ with buffer := b₁ } := by
  induction ls with
  | nil => intro o b₁ b₂ tc; rfl
  | cons l ls ih =>
    intro o b₁ b₂ tc
    rcases hE : handleLine k ⟨o, b₂, tc⟩ l with ⟨o', bx, tc'⟩
    have hl : handleLine k ⟨o, b₁, tc⟩ l = ⟨o', b₁, tc'⟩ := by
      rw [handleLine_buffer k l o b₁ b₂ tc, hE]
    rw [List.foldl_cons, List.foldl_cons, hE, hl]
    exact ih o' b₁ bx tc'

theorem splitLinesP_append :
    ∀ (a b : List Char),
      splitLinesP (a ++ b) =
        ((splitLinesP a).1 ++ (splitLinesP ((splitLinesP a).2 ++ b)).1,
          (splitLinesP ((splitLinesP a).2 ++ b)).2) := by
  intro a
  induction a with
  | nil => intro b; simp [splitLinesP]
  | cons c a' ih =>
    intro b
    by_cases hc : c = '\n'
    · subst hc
      simp only [List.cons_append, splitLinesP, beq_self_eq_true, if_pos, List.append_eq]
      rw [ih b]
    · have hb : (c == '\n') = false := by simp [hc]
      simp only [List.cons_append, splitLinesP, hb, Bool.false_eq_true, if_false,
        List.append_eq]
      rw [ih b]
      cases hp : (splitLinesP a').1 with
      | nil =>
        simp only [hp, List.nil_append, List.append_eq]
        cases hq : (splitLinesP ((splitLinesP a').2 ++ b)).1 <;>
          simp [splitLinesP, hb, hq]
      | cons q qs =>
        simp [hp]

theorem splitLinesP_snd_no_nl : ∀ l : List Char, '\n' ∉ (splitLinesP l).2 := by
  intro l
  induction l with
  | nil => simp [splitLinesP]
  | cons c rest ih =>
    simp only [splitLinesP]
    by_cases hc : c = '\n'
    · simp [hc, ih]
    · have hb : (c == '\n') = false := by simp [hc]
      simp only [hb, Bool.false_eq_true, if_false]
      cases hp : (splitLinesP rest).1 with
      | nil =>
        simp only [hp]
        intro hm
        rcases List.mem_cons.mp hm with he | hm2
        · exact hc he.symm
        · exact ih hm2
      | cons q qs => simpa [hp] using ih

theorem splitLinesP_of_no_nl : ∀ l : List Char, '\n' ∉ l → splitLinesP l = ([], l) := by
  intro l
  induction l with
  | nil => intro _; rfl
  | cons c rest ih =>
    intro h
    have hc : c ≠ '\n' := fun he => h (he ▸ List.mem_cons_self _ _)
    have hb : (c == '\n') = false := by simp [hc]
    have hr : splitLinesP rest = ([], rest) := ih (fun hm => h (List.mem_cons_of_mem _ hm))
    simp [splitLinesP, hb, hr]

theorem processChunk_nil (k : Option (List Char)) (st : ConsumerState)
    (h : '\n' ∉ st.buffer) : processChunk k st [] = st := by
  rw [processChunk_eq]
  rw [List.append_nil, splitLinesP_of_no_nl st.buffer h]
  rcases st with ⟨o, b, tc⟩
  rfl

theorem processChunk_buffer_no_nl (k : Option (List Char)) (st : ConsumerState)
    (c : List Char) : '\n' ∉ (processChunk k st c).buffer := by
  rw [processChunk_eq]
  exact splitLinesP_snd_no_nl (st.buffer ++ c)

theorem processChunk_append (k : Option (List Char)) (st : ConsumerState) (a b : List Char) :
    processChunk k (processChunk k st a) b = processChunk k st (a ++ b) := by
  rw [processChunk_eq k st a]
  rcases hF : (splitLinesP (st.buffer ++ a)).1.foldl (handleLine k) st with ⟨o₁, bf, tc₁⟩
  rw [processChunk_eq, processChunk_eq]
  simp only [hF]
  have hsplit := splitLinesP_append (st.buffer ++ a) b
  rw [List.append_assoc] at hsplit
  simp only [hsplit, List.foldl_append, hF]
  rw [foldl_handleLine_buffer k _ o₁ (splitLinesP (st.buffer ++ a)).2 bf tc₁]

theorem foldl_processChunk (k : Option (List Char)) :
    ∀ (chunks : List (List Char)) (st : ConsumerState), '\n' ∉ st.buffer →
      chunks.foldl (processChunk k) st = processChunk k st chunks.flatten := by
  intro chunks
  induction chunks with
  | nil => intro st h; exact (processChunk_nil k st h).symm
  | cons c cs ih =>
    intro st h
    rw [List.foldl_cons, List.flatten_cons]
    rw [ih (processChunk k st c) (processChunk_buffer_no_nl k st c)]
    exact processChunk_append k st c cs.flatten

/-- C2: for every way of splitting a byte stream into read chunks, the
consumer ends in the same state — same output text, same open-tool-call
state, same residual buffer — as if the whole stream had arrived in one read:
an event is acted on only once its full line is present, and the partial
trailing line is carried in the buffer, so chunk boundaries are unobservable. -/
theorem claim2_chunking_unobservable (k : Option (List Char)) (st : ConsumerState)
    (chunks chunks' : List (List Char))
    (h : '\n' ∉ st.buffer) (hjoin : chunks.flatten = chunks'.flatten) :
    chunks.foldl (processChunk k) st = processChunk k st chunks.flatten ∧
    chunks.foldl (processChunk k) st = chunks'.foldl (processChunk k) st := by
  refine ⟨foldl_processChunk k chunks st h, ?_⟩
  rw [foldl_processChunk k chunks st h, foldl_processChunk k chunks' st h, hjoin]

/-- C2 witness: a two-frame stream split at awkward byte boundaries is
processed identically to the unsplit stream. -/
theorem claim2_witness :
    ["data: \x7b\"te".data, "xt\":\"a\"\x7d\nda".data,
        "ta: \x7b\"text\":\"b\"\x7d\nxy".data].foldl (processChunk none) initConsumer =
      processChunk none initConsumer
        (["data: \x7b\"te".data, "xt\":\"a\"\x7d\nda".data,
          "ta: \x7b\"text\":\"b\"\x7d\nxy".data].flatten) ∧
    ["data: \x7b\"te".data, "xt\":\"a\"\x7d\nda".data,
        "ta: \x7b\"text\":\"b\"\x7d\nxy".data].foldl (processChunk none) initConsumer =
      ["data: \x7b\"text\":\"a\"\x7d\ndata: \x7b\"text\":\"b\"\x7d\nxy".data].foldl
        (processChunk none) initConsumer := by
  exact claim2_chunking_unobservable none initConsumer
    ["data: \x7b\"te".data, "xt\":\"a\"\x7d\nda".data, "ta: \x7b\"text\":\"b\"\x7d\nxy".data]
    ["data: \x7b\"text\":\"a\"\x7d\ndata: \x7b\"text\":\"b\"\x7d\nxy".data]
    (by decide) rfl

/-! ## C9: parsePrompt — dedup, order, identifier pattern, lookbehind -/

theorem firstOccurF_congr :
    ∀ (f₁ : Nat) (l : List (List Char)) (f₂ : Nat), l.length ≤ f₁ → l.length ≤ f₂ →
      firstOccurF f₁ l = firstOccurF f₂ l := by
  intro f₁
  induction f₁ with
  | zero =>
    intro l f₂ h1 _
    rw [List.length_eq_zero.mp (Nat.le_zero.mp h1)]
    cases f₂ <;> rfl
  | succ g ih =>
    intro l f₂ h1 h2
    cases l with
    | nil => cases f₂ <;> rfl
    | cons x xs =>
      cases f₂ with
      | zero => exact absurd h2 (by simp)
      | succ g₂ =>
        have hx1 : (xs.filter (fun y => !(y == x))).length ≤ g :=
          le_trans (List.length_filter_le _ _) (by simp at h1; omega)
        have hx2 : (xs.filter (fun y => !(y == x))).length ≤ g₂ :=
          le_trans (List.length_filter_le _ _) (by simp at h2; omega)
        simp only [firstOccurF]
        rw [ih _ g₂ hx1 hx2]

theorem firstOccur_cons (x : List Char) (l : List (List Char)) :
    firstOccur (x :: l) = x :: firstOccur (l.filter (fun y => !(y == x))) := by
  simp only [firstOccur, List.length_cons, firstOccurF]
  rw [firstOccurF_congr l.length (l.filter (fun y => !(y == x)))
    (l.filter (fun y => !(y == x))).length (List.length_filter_le _ _) (le_refl _)]

theorem contains_append (l₁ l₂ : List (List Char)) (a : List Char) :
    (l₁ ++ l₂).contains a = (l₁.contains a || l₂.contains a) := by
  induction l₁ with
  | nil => simp
  | cons x xs ih => simp [List.contains_cons, ih, Bool.or_assoc]

theorem foldl_pushUnique :
    ∀ (l : List (List Char)) (acc : List (List Char)),
      l.foldl pushUnique acc = acc ++ firstOccur (l.filter (fun y => !acc.contains y)) := by
  intro l
  induction l with
  | nil => intro acc; simp [firstOccur, firstOccurF]
  | cons x xs ih =>
    intro acc
    rw [List.foldl_cons]
    by_cases hc : acc.contains x = true
    · have hmem : x ∈ acc := by simpa using hc
      have hpu : pushUnique acc x = acc := by simp [pushUnique, hmem]
      rw [hpu, ih acc]
      have hfil : (x :: xs).filter (fun y => !acc.contains y) =
          xs.filter (fun y => !acc.contains y) := by
        simp [List.filter_cons, hmem]
      rw [hfil]
    · have hno : x ∉ acc := by simpa using hc
      have hpu : pushUnique acc x = acc ++ [x] := by simp [pushUnique, hno]
      rw [hpu, ih (acc ++ [x])]
      have hfil : (x :: xs).filter (fun y => !acc.contains y) =
          x :: xs.filter (fun y => !acc.contains y) := by
        simp [List.filter_cons, hno]
      rw [hfil, firstOccur_cons, List.filter_filter]
      have hpt : xs.filter (fun y => !(y == x) && !acc.contains y) =
          xs.filter (fun y => !(acc ++ [x]).contains y) := by
        apply List.filter_congr
        intro y _
        rw [contains_append]
        by_cases hyx : y = x <;>
          simp [hyx, List.contains_cons, Bool.not_or, Bool.and_comm]
      rw [hpt, List.append_assoc]
      rfl

theorem dedupFirst_eq_firstOccur (l : List (List Char)) : dedupFirst l = firstOccur l := by
  rw [dedupFirst, foldl_pushUnique l []]
  simp [List.filter_true]

theorem firstOccurF_subset :
    ∀ (fuel : Nat) (l : List (List Char)) (y : List Char),
      y ∈ firstOccurF fuel l → y ∈ l := by
  intro fuel
  induction fuel with
  | zero => intro l y h; cases l <;> simp [firstOccurF] at h
  | succ g ih =>
    intro l y h
    cases l with
    | nil => simp [firstOccurF] at h
    | cons x xs =>
      simp only [firstOccurF, List.mem_cons] at h
      rcases h with he | hm
      · exact he ▸ List.mem_cons_self _ _
      · exact List.mem_cons_of_mem _ (List.mem_filter.mp (ih _ y hm)).1

theorem firstOccurF_nodup :
    ∀ (fuel : Nat) (l : List (List Char)), (firstOccurF fuel l).Nodup := by
  intro fuel
  induction fuel with
  | zero => intro l; cases l <;> simp [firstOccurF]
  | succ g ih =>
    intro l
    cases l with
    | nil => simp [firstOccurF]
    | cons x xs =>
      simp only [firstOccurF, List.nodup_cons]
      refine ⟨fun hm => ?_, ih _⟩
      have := (List.mem_filter.mp (firstOccurF_subset g _ x hm)).2
      simp at this

theorem takeWordChars_all (l : List Char) : (takeWordChars l).all isWordChar = true :=
  List.all_eq_true.mpr (fun _ hx => List.mem_takeWhile_imp hx)

theorem scanVarsF_ident :
    ∀ (fuel : Nat) (t n : List Char), n ∈ scanVarsF fuel t → isIdentName n = true := by
  intro fuel
  induction fuel with
  | zero => intro t n h; simp [scanVarsF] at h
  | succ g ih =>
    intro t n h
    match t with
    | [] => simp [scanVarsF] at h
    | [c] => simp [scanVarsF] at h
    | c :: d :: rest' =>
      simp only [scanVarsF] at h
      by_cases hc : (c == '$') = true
      · rw [if_pos hc] at h
        by_cases hd : isIdentStart d = true
        · rw [if_pos hd] at h
          rcases List.mem_cons.mp h with he | hm
          · subst he
            simp [isIdentName, hd, takeWordChars_all]
          · exact ih _ n hm
        · rw [if_neg hd] at h
          exact ih _ n h
      · rw [if_neg hc] at h
        exact ih _ n h

theorem scanFuncsF_ident :
    ∀ (fuel : Nat) (prev : Option Char) (t n : List Char),
      n ∈ scanFuncsF fuel prev t → isIdentName n = true := by
  intro fuel
  induction fuel with
  | zero => intro prev t n h; simp [scanFuncsF] at h
  | succ g ih =>
    intro prev t n h
    match t with
    | [] => simp [scanFuncsF] at h
    | [c] => simp [scanFuncsF] at h
    | c :: d :: rest' =>
      simp only [scanFuncsF] at h
      by_cases hc : (c == '&' && !prevWord prev) = true
      · rw [if_pos hc] at h
        by_cases hd : isIdentStart d = true
        · rw [if_pos hd] at h
          rcases List.mem_cons.mp h with he | hm
          · subst he
            simp [isIdentName, hd, takeWordChars_all]
          · exact ih _ _ n hm
        · rw [if_neg hd] at h
          exact ih _ _ n h
      · rw [if_neg hc] at h
        exact ih _ _ n h

/-- The character just before a match position, as a property of the
decomposition: empty prefix demands a non-word `prev`, otherwise a non-word
last character. -/
def lastCharOk (prev : Option Char) (pre : List Char) : Prop :=
  match pre.getLast? with
  | none => prevWord prev = false
  | some c => isWordChar c = false

theorem drop_takeWhile_length (p : Char → Bool) (l : List Char) :
    l.drop (l.takeWhile p).length = l.dropWhile p := by
  induction l with
  | nil => rfl
  | cons c rest ih =>
    by_cases hp : p c = true
    · simp [List.takeWhile_cons, List.dropWhile_cons, hp, ih]
    · simp [List.takeWhile_cons, List.dropWhile_cons, hp]

theorem drop_takeWordChars (l : List Char) :
    l.drop (takeWordChars l).length = l.dropWhile isWordChar := by
  rw [takeWordChars]
  exact drop_takeWhile_length _ l

theorem lastCharOk_cons (prev : Option Char) (c : Char) (pre' : List Char)
    (hok : lastCharOk (some c) pre') : lastCharOk prev (c :: pre') := by
  rcases hq : pre'.getLast? with _ | z
  · have hpre' : pre' = [] := List.getLast?_eq_none_iff.mp hq
    subst hpre'
    have hcw : isWordChar c = false := by simpa [lastCharOk, prevWord] using hok
    simp [lastCharOk, hcw]
  · have hz : isWordChar z = false := by simpa [lastCharOk, hq] using hok
    have hlast : (c :: pre').getLast? = some z := by
      rw [List.getLast?_cons, hq]
      rfl
    simp [lastCharOk, hlast, hz]

theorem scanFuncsF_lookbehind :
    ∀ (fuel : Nat) (prev : Option Char) (t f : List Char),
      f ∈ scanFuncsF fuel prev t →
      ∃ pre post, t = pre ++ '&' :: (f ++ post) ∧ lastCharOk prev pre := by
  intro fuel
  induction fuel with
  | zero => intro prev t f h; simp [scanFuncsF] at h
  | succ g ih =>
    intro prev t f h
    match t with
    | [] => simp [scanFuncsF] at h
    | [c] => simp [scanFuncsF] at h
    | c :: d :: rest' =>
      simp only [scanFuncsF] at h
      by_cases hc : (c == '&' && !prevWord prev) = true
      · have hconj : (c == '&') = true ∧ (!prevWord prev) = true := by
          simpa [Bool.and_eq_true] using hc
        have hamp : c = '&' := by simpa using hconj.1
        have hpw : prevWord prev = false := by simpa using hconj.2
        rw [if_pos hc] at h
        by_cases hd : isIdentStart d = true
        · rw [if_pos hd] at h
          rcases List.mem_cons.mp h with he | hm
          · subst he
            refine ⟨[], rest'.dropWhile isWordChar, ?_, ?_⟩
            · rw [hamp]
              simp only [List.nil_append, List.cons_append]
              rw [takeWordChars, List.takeWhile_append_dropWhile]
            · simpa [lastCharOk] using hpw

          · rcases ih _ _ f hm with ⟨pre', post', heq, hok⟩
            rw [drop_takeWordChars] at heq
            refine ⟨('&' :: d :: takeWordChars rest') ++ pre', post', ?_, ?_⟩
            · rw [hamp]
              simp only [List.cons_append, List.append_assoc]
              rw [← heq]
              rw [takeWordChars, List.takeWhile_append_dropWhile]
            · rcases hq : pre'.getLast? with _ | z
              · have hpre' : pre' = [] := List.getLast?_eq_none_iff.mp hq
                subst hpre'
                have hz : isWordChar ((takeWordChars rest').getLastD d) = false := by
                  simpa [lastCharOk, prevWord] using hok
                simp only [List.append_nil, lastCharOk, List.getLast?_cons]
                rw [List.getLastD_eq_getLast?] at hz
                simpa [List.getLast?_cons] using hz
              · have hz : isWordChar z = false := by
                  simpa [lastCharOk, hq] using hok
                have h1 : (takeWordChars rest' ++ pre').getLast? = some z := by
                  rw [List.getLast?_append, hq]
                  rfl
                have h2 : (d :: (takeWordChars rest' ++ pre')).getLast? = some z := by
                  rw [List.getLast?_cons, h1]
                  rfl
                simp only [lastCharOk, List.cons_append, List.getLast?_cons, h1]
                exact hz
        · rw [if_neg hd] at h
          rcases ih _ _ f h with ⟨pre', post', heq, hok⟩
          exact ⟨c :: pre', post', by rw [heq]; rfl, lastCharOk_cons prev c pre' hok⟩
      · rw [if_neg hc] at h
        rcases ih _ _ f h with ⟨pre', post', heq, hok⟩
        exact ⟨c :: pre', post', by rw [heq]; rfl, lastCharOk_cons prev c pre' hok⟩

/-- C9: `parsePrompt` returns each referenced variable and function name
exactly once, in order of first occurrence (the raw reference streams
deduplicated by first occurrence); every returned name matches the identifier
pattern; and every returned function reference comes from an `&` occurrence
not immediately preceded by a word character. -/
theorem claim9_parse_prompt (t : List Char) :
    (parsePrompt t).varRefs = firstOccur (scanVars t) ∧
    (parsePrompt t).funcRefs = firstOccur (scanFuncs t) ∧
    (parsePrompt t).varRefs.Nodup ∧
    (parsePrompt t).funcRefs.Nodup ∧
    (∀ v ∈ (parsePrompt t).varRefs, isIdentName v = true) ∧
    (∀ f ∈ (parsePrompt t).funcRefs, isIdentName f = true) ∧
    (∀ f ∈ (parsePrompt t).funcRefs, ∃ pre post,
      t = pre ++ '&' :: (f ++ post) ∧
      (pre = [] ∨ ∃ c, pre.getLast? = some c ∧ isWordChar c = false)) := by
  have hv : (parsePrompt t).varRefs = firstOccur (scanVars t) :=
    dedupFirst_eq_firstOccur _
  have hf : (parsePrompt t).funcRefs = firstOccur (scanFuncs t) :=
    dedupFirst_eq_firstOccur _
  have hvm : ∀ v ∈ (parsePrompt t).varRefs, v ∈ scanVars t := by
    intro v hm
    rw [hv] at hm
    exact firstOccurF_subset _ _ v hm
  have hfm : ∀ f ∈ (parsePrompt t).funcRefs, f ∈ scanFuncs t := by
    intro f hm
    rw [hf] at hm
    exact firstOccurF_subset _ _ f hm
  refine ⟨hv, hf, ?_, ?_, ?_, ?_, ?_⟩
  · rw [hv]; exact firstOccurF_nodup _ _
  · rw [hf]; exact firstOccurF_nodup _ _
  · exact fun v hm => scanVarsF_ident _ _ v (hvm v hm)
  · exact fun f hm => scanFuncsF_ident _ _ _ f (hfm f hm)
  · intro f hm
    rcases scanFuncsF_lookbehind t.length none t f (hfm f hm) with ⟨pre, post, heq, hok⟩
    refine ⟨pre, post, heq, ?_⟩
    rcases hq : pre.getLast? with _ | c
    · exact Or.inl (List.getLast?_eq_none_iff.mp hq)
    · exact Or.inr ⟨c, rfl, by simpa [lastCharOk, hq] using hok⟩

/-- C9 witness: the statement applied to a concrete prompt; in particular the
returned function `g` carries a decomposition witnessing the lookbehind. -/
theorem claim9_witness :
    (parsePrompt "a&f $x $x &g".data).varRefs =
      firstOccur (scanVars "a&f $x $x &g".data) ∧
    isIdentName "g".data = true ∧
    (∃ pre post, "a&f $x $x &g".data = pre ++ '&' :: ("g".data ++ post) ∧
      (pre = [] ∨ ∃ c, pre.getLast? = some c ∧ isWordChar c = false)) := by
  have h := claim9_parse_prompt "a&f $x $x &g".data
  refine ⟨h.1, ?_, ?_⟩
  · exact h.2.2.2.2.2.1 "g".data (by decide)
  · exact h.2.2.2.2.2.2 "g".data (by decide)

/-! ## C10: removeFunctionReferences — whitespace normalisation (claim corrected) -/

theorem head?_dropWhile (p : Char → Bool) :
    ∀ (l : List Char) (c : Char), (l.dropWhile p).head? = some c → p c = false := by
  intro l
  induction l with
  | nil => intro c h; simp at h
  | cons d rest ih =>
    intro c h
    by_cases hd : p d = true
    · rw [List.dropWhile_cons, if_pos hd] at h
      exact ih c h
    · rw [List.dropWhile_cons, if_neg hd] at h
      simp at h
      rw [← h]
      simpa using hd

theorem collapseWsF_mem :
    ∀ (fuel : Nat) (l : List Char), l.length ≤ fuel →
      ∀ c ∈ collapseWsF fuel l, isJsSpace c = true → c = ' ' := by
  intro fuel
  induction fuel with
  | zero =>
    intro l hl c hc
    rw [List.length_eq_zero.mp (Nat.le_zero.mp hl)] at hc
    simp [collapseWsF] at hc
  | succ g ih =>
    intro l hl c hc hsp
    cases l with
    | nil => simp [collapseWsF] at hc
    | cons d rest =>
      simp only [collapseWsF] at hc
      by_cases hd : isJsSpace d = true
      · rw [if_pos hd] at hc
        rcases List.mem_cons.mp hc with he | hm
        · exact he
        · exact ih (rest.dropWhile isJsSpace)
            (le_trans (List.dropWhile_suffix isJsSpace).sublist.length_le
              (by simp at hl; omega)) c hm hsp
      · rw [if_neg hd] at hc
        rcases List.mem_cons.mp hc with he | hm
        · exact absurd (he ▸ hsp) (by simpa using hd)
        · exact ih rest (by simp at hl; omega) c hm hsp

theorem collapseWsF_head (g : Nat) (c : Char) (rest : List Char) :
    (collapseWsF (g + 1) (c :: rest)).head? =
      some (if isJsSpace c then ' ' else c) := by
  simp only [collapseWsF]
  by_cases hd : isJsSpace c = true
  · rw [if_pos hd, if_pos hd]
    rfl
  · rw [if_neg hd, if_neg hd]
    rfl

theorem chain_collapseWsF :
    ∀ (fuel : Nat) (l : List Char), l.length ≤ fuel →
      List.Chain' (fun a b => ¬(isJsSpace a = true ∧ isJsSpace b = true))
        (collapseWsF fuel l) := by
  intro fuel
  induction fuel with
  | zero =>
    intro l hl
    rw [List.length_eq_zero.mp (Nat.le_zero.mp hl)]
    simp [collapseWsF]
  | succ g ih =>
    intro l hl
    cases l with
    | nil => simp [collapseWsF]
    | cons d rest =>
      simp only [collapseWsF]
      by_cases hd : isJsSpace d = true
      · rw [if_pos hd]
        rw [List.chain'_cons']
        have hlen : (rest.dropWhile isJsSpace).length ≤ g :=
          le_trans (List.dropWhile_suffix isJsSpace).sublist.length_le
            (by simp at hl; omega)
        refine ⟨?_, ih _ hlen⟩
        intro y hy
        cases hdw : rest.dropWhile isJsSpace with
        | nil =>
          rw [hdw] at hy
          cases g <;> simp [collapseWsF] at hy
        | cons e es =>
          rw [hdw] at hy hlen
          cases g with
          | zero => simp at hlen
          | succ g' =>
            rw [collapseWsF_head] at hy
            have he : isJsSpace e = false := by
              apply head?_dropWhile isJsSpace rest
              rw [hdw]
              rfl
            rw [he] at hy
            simp only [Bool.false_eq_true, if_false, Option.mem_def, Option.some.injEq] at hy
            rw [← hy]
            intro hcon
            rw [he] at hcon
            exact absurd hcon.2 (by simp)
      · rw [if_neg hd]
        rw [List.chain'_cons']
        refine ⟨?_, ih rest (by simp at hl; omega)⟩
        intro y _
        intro hcon
        exact absurd hcon.1 (by simpa using hd)

theorem chain_of_inner (R : Char → Char → Prop) (l₁ l₂ : List Char)
    (h : List.Chain' R l₂) (hin : l₁ <:+: l₂) : List.Chain' R l₁ := by
  rcases hin with ⟨u, v, huv⟩
  rw [← huv, List.append_assoc] at h
  exact (h.right_of_append).left_of_append

theorem trimJs_sub (l : List Char) : trimJs l <:+: l := by
  have h1 : l.dropWhile isJsSpace <:+ l := List.dropWhile_suffix _
  have h2 : (l.dropWhile isJsSpace).reverse.dropWhile isJsSpace <:+
      (l.dropWhile isJsSpace).reverse := List.dropWhile_suffix _
  have h3 : trimJs l <+: l.dropWhile isJsSpace := by
    rw [← List.reverse_suffix]
    simpa [trimJs] using h2
  exact h3.isInfix.trans h1.isInfix

theorem trimJs_head (l : List Char) (c : Char) (h : (trimJs l).head? = some c) :
    isJsSpace c = false := by
  have h3 : trimJs l <+: l.dropWhile isJsSpace := by
    rw [← List.reverse_suffix]
    simpa [trimJs] using
      (List.dropWhile_suffix (l := (l.dropWhile isJsSpace).reverse) isJsSpace)
  rcases h3 with ⟨t, ht⟩
  have hm : (l.dropWhile isJsSpace).head? = some c := by
    rw [← ht, List.head?_append, h]
    rfl
  exact head?_dropWhile isJsSpace l c hm

theorem trimJs_getLast (l : List Char) (c : Char) (h : (trimJs l).getLast? = some c) :
    isJsSpace c = false := by
  rw [trimJs, List.getLast?_reverse] at h
  exact head?_dropWhile isJsSpace (l.dropWhile isJsSpace).reverse c h

/-- C10 counterexample: the claim says the output of `removeFunctionReferences`
contains no `&name` function references, but removing `&a` from `"&a&b"`
exposes a new reference: the output is exactly `"&b"`, which the reference
scanner itself recognises. -/
theorem claim10_counterexample :
    removeFunctionReferences ("&a&b".data) = "&b".data ∧
    scanFuncs (removeFunctionReferences ("&a&b".data)) = ["b".data] := by
  exact ⟨by decide, by decide⟩

/-- C10 (amended): the whitespace half of the claim holds — in the output of
`removeFunctionReferences` every whitespace character is a plain space (hence
no newline or tab survives), no two consecutive characters are both
whitespace, there is no leading or trailing whitespace, and consequently
`processPrompt` never preserves the prompt's original line structure — but the
output can still contain an `&name` function reference, because deleting one
reference can expose another (see the counterexample `"&a&b" ↦ "&b"`). -/
theorem claim10_amended_whitespace (text : List Char) (vars : List (List Char × List Char)) :
    (∀ c ∈ removeFunctionReferences text, isJsSpace c = true → c = ' ') ∧
    '\n' ∉ removeFunctionReferences text ∧
    '\t' ∉ removeFunctionReferences text ∧
    List.Chain' (fun a b => ¬(isJsSpace a = true ∧ isJsSpace b = true))
      (removeFunctionReferences text) ∧
    (∀ c, (removeFunctionReferences text).head? = some c → isJsSpace c = false) ∧
    (∀ c, (removeFunctionReferences text).getLast? = some c → isJsSpace c = false) ∧
    '\n' ∉ processPrompt text vars := by
  have hmem : ∀ (t : List Char), ∀ c ∈ removeFunctionReferences t,
      isJsSpace c = true → c = ' ' := by
    intro t c hc
    have hsub : c ∈ collapseWs (removeFuncRefs t) :=
      (trimJs_sub _).sublist.subset hc
    exact collapseWsF_mem _ _ (le_refl _) c hsub
  have hnl : ∀ (t : List Char), '\n' ∉ removeFunctionReferences t := by
    intro t hc
    have := hmem t '\n' hc (by decide)
    simp at this
  refine ⟨hmem text, hnl text, ?_, ?_, ?_, ?_, ?_⟩
  · intro hc
    have := hmem text '\t' hc (by decide)
    simp at this
  · exact chain_of_inner _ _ _ (chain_collapseWsF _ _ (le_refl _)) (trimJs_sub _)
  · exact fun c h => trimJs_head _ c h
  · exact fun c h => trimJs_getLast _ c h
  · intro hc
    have hsub : '\n' ∈ removeFunctionReferences (substituteVariables text vars) :=
      (trimJs_sub _).sublist.subset hc
    exact hnl _ hsub

/-- C10 witness: the amended statement evaluated on a concrete prompt with
markdown line structure. -/
theorem claim10_witness :
    ('\n' ∉ removeFunctionReferences "Use &f and &g,\n  then  stop\t".data) ∧
    removeFunctionReferences "Use &f and &g,\n  then  stop\t".data =
      "Use and , then stop".data ∧
    isJsSpace ' ' = true := by
  have h := claim10_amended_whitespace "Use &f and &g,\n  then  stop\t".data []
  exact ⟨h.2.1, by decide, by decide⟩

end AiJup
